import Mathlib

/-!
Verification development for the google-doc-backup tool
(src/download_google_doc.pyw).  The two subsystems under study are the
remote path resolver (find_folder_id) and the retention engine
(download_google_file_as_ms_office): decision logic, file naming,
backup pruning, the dry-run flag and the path cache.

Conventions of the embedding:
* Python strings are Lean String / List Char.
* POSIX timestamps (floats returned by os.path.getmtime and
  datetime.timestamp) are modelled as Rat.
* A parsed datetime is modelled by the structure Timestamp
  (year, month, day, hour, minute, second); comparison of datetimes is
  lexicographic on these components, which we encode order-isomorphically
  by the Nat key tsKey (each component is bounded by its digit count).
* The remote modifiedDate of a document is modelled, once parsed, as the
  pair GTime of its strftime components and its epoch value; the Option
  wrapper mirrors the code path where modifiedDate is missing from the
  metadata (or dateutil fails to parse it).
* The floating-point expression
  int(round(math.exp(math.log(m-1)*i/(n-1)))) in the staggered pruner is
  not embeddable exactly; theorems about the staggered policy are proved
  for every possible value of that expression, by abstracting it as a
  function stagRaw : Nat -> Nat -> Nat -> Int which the code then clamps
  to [0, m-1] exactly as the source does.
-/

namespace GDB

/-- A parsed wall-clock / document time, as produced by
datetime.strptime(ts, "%Y-%m-%d_%H-%M-%S") or dateutil's parser. -/
structure Timestamp where
  y : Nat
  mo : Nat
  d : Nat
  h : Nat
  mi : Nat
  s : Nat
deriving DecidableEq, Repr, Inhabited

/-- Order key for Timestamp: datetime comparison is lexicographic on
(y, mo, d, h, mi, s); for timestamps whose components are within their
digit bounds this Nat is order-isomorphic to that order. -/
def tsKey (t : Timestamp) : Nat :=
  ((((t.y * 100 + t.mo) * 100 + t.d) * 100 + t.h) * 100 + t.mi) * 100 + t.s

/-- Decimal digit as a character (for strftime zero-padding). -/
def digitChar (n : Nat) : Char := Char.ofNat (48 + n % 10)

/-- Two-digit zero-padded field, as %m %d %H %M %S render it. -/
def pad2 (n : Nat) : List Char := [digitChar (n / 10), digitChar n]

/-- Four-digit zero-padded field, as %Y renders it. -/
def pad4 (n : Nat) : List Char :=
  [digitChar (n / 1000), digitChar (n / 100), digitChar (n / 10), digitChar n]

/-- strftime("%Y-%m-%d_%H-%M-%S") on a parsed datetime. -/
def fmtTs (t : Timestamp) : String :=
  String.mk (pad4 t.y ++ '-' :: pad2 t.mo ++ '-' :: pad2 t.d ++
    '_' :: pad2 t.h ++ '-' :: pad2 t.mi ++ '-' :: pad2 t.s)

/-- The remote modifiedDate once parsed by dateutil: the strftime view
used for file names, and the epoch-seconds view (datetime.timestamp())
used for modification-time comparison and os.utime. -/
structure GTime where
  fmt : Timestamp
  epoch : Rat
deriving DecidableEq, Repr

/-- Stable insertion step: x is placed before the first element y for
which lt y x fails, i.e. before every element it ties with. -/
def sInsert {α : Type} (lt : α → α → Bool) (x : α) : List α → List α
  | [] => [x]
  | y :: ys => if lt y x then y :: sInsert lt x ys else x :: y :: ys

/-- Stable sort (same result as Python's stable list.sort with the
corresponding key/reverse arguments). -/
def sSort {α : Type} (lt : α → α → Bool) : List α → List α
  | [] => []
  | x :: xs => sInsert lt x (sSort lt xs)

theorem sInsert_perm {α : Type} (lt : α → α → Bool) (x : α) (l : List α) :
    List.Perm (sInsert lt x l) (x :: l) := by
  induction l with
  | nil => simp [sInsert]
  | cons y ys ih =>
    simp only [sInsert]
    by_cases h : lt y x
    · simp only [h, if_true]
      exact List.Perm.trans (List.Perm.cons y ih) (List.Perm.swap x y ys)
    · simp [h]

theorem sSort_perm {α : Type} (lt : α → α → Bool) (l : List α) :
    List.Perm (sSort lt l) l := by
  induction l with
  | nil => simp [sSort]
  | cons x xs ih =>
    exact List.Perm.trans (sInsert_perm lt x (sSort lt xs)) (List.Perm.cons x ih)

theorem mem_sSort {α : Type} (lt : α → α → Bool) (l : List α) (a : α) :
    a ∈ sSort lt l ↔ a ∈ l :=
  (sSort_perm lt l).mem_iff

theorem length_sSort {α : Type} (lt : α → α → Bool) (l : List α) :
    (sSort lt l).length = l.length :=
  (sSort_perm lt l).length_eq

/-- Sortedness of stable insertion, for a Nat key in ascending order. -/
theorem pairwise_sInsert_asc {α : Type} (k : α → Nat) (x : α) (l : List α)
    (h : List.Pairwise (fun a b => k a ≤ k b) l) :
    List.Pairwise (fun a b => k a ≤ k b)
      (sInsert (fun a b => decide (k a < k b)) x l) := by
  induction l with
  | nil => simp [sInsert]
  | cons y ys ih =>
    rcases List.pairwise_cons.mp h with ⟨hy, hys⟩
    simp only [sInsert]
    by_cases hlt : k y < k x
    · simp only [decide_eq_true_eq, hlt, if_true]
      refine List.pairwise_cons.mpr ⟨?_, ih hys⟩
      intro b hb
      rcases List.mem_cons.mp ((sInsert_perm _ x ys).mem_iff.mp hb) with hb | hb
      · exact hb ▸ Nat.le_of_lt hlt
      · exact hy b hb
    · simp only [decide_eq_true_eq, hlt, if_false]
      refine List.pairwise_cons.mpr ⟨?_, h⟩
      intro b hb
      rcases List.mem_cons.mp hb with hb | hb
      · exact hb ▸ Nat.le_of_not_lt hlt
      · exact Nat.le_trans (Nat.le_of_not_lt hlt) (hy b hb)

theorem pairwise_sSort_asc {α : Type} (k : α → Nat) (l : List α) :
    List.Pairwise (fun a b => k a ≤ k b)
      (sSort (fun a b => decide (k a < k b)) l) := by
  induction l with
  | nil => simp [sSort]
  | cons x xs ih => exact pairwise_sInsert_asc k x _ ih

/-- Sortedness of stable insertion, for a Nat key in descending order
(Python's sort with reverse=True). -/
theorem pairwise_sInsert_desc {α : Type} (k : α → Nat) (x : α) (l : List α)
    (h : List.Pairwise (fun a b => k b ≤ k a) l) :
    List.Pairwise (fun a b => k b ≤ k a)
      (sInsert (fun a b => decide (k b < k a)) x l) := by
  induction l with
  | nil => simp [sInsert]
  | cons y ys ih =>
    rcases List.pairwise_cons.mp h with ⟨hy, hys⟩
    simp only [sInsert]
    by_cases hlt : k x < k y
    · simp only [decide_eq_true_eq, hlt, if_true]
      refine List.pairwise_cons.mpr ⟨?_, ih hys⟩
      intro b hb
      rcases List.mem_cons.mp ((sInsert_perm _ x ys).mem_iff.mp hb) with hb | hb
      · exact hb ▸ Nat.le_of_lt hlt
      · exact hy b hb
    · simp only [decide_eq_true_eq, hlt, if_false]
      refine List.pairwise_cons.mpr ⟨?_, h⟩
      intro b hb
      rcases List.mem_cons.mp hb with hb | hb
      · exact hb ▸ Nat.le_of_not_lt hlt
      · exact Nat.le_trans (hy b hb) (Nat.le_of_not_lt hlt)

theorem pairwise_sSort_desc {α : Type} (k : α → Nat) (l : List α) :
    List.Pairwise (fun a b => k b ≤ k a)
      (sSort (fun a b => decide (k b < k a)) l) := by
  induction l with
  | nil => simp [sSort]
  | cons x xs ih => exact pairwise_sInsert_desc k x _ ih

/-- Kernel-computable rendering of the float test
abs(local_mod_ts - google_mod_ts) < 1.0 on rationals: compare the
cross-multiplied difference against the product of denominators,
avoiding Rat normalisation (whose gcd does not reduce in the kernel). -/
def absDiffLtOne (a b : Rat) : Bool :=
  (a.num * (b.den : Int) - b.num * (a.den : Int)).natAbs < a.den * b.den

theorem absDiffLtOne_iff (a b : Rat) : absDiffLtOne a b = true ↔ |a - b| < 1 := by
  have hda : (0 : Rat) < (a.den : Rat) := by
    exact_mod_cast Nat.pos_of_ne_zero a.den_nz
  have hdb : (0 : Rat) < (b.den : Rat) := by
    exact_mod_cast Nat.pos_of_ne_zero b.den_nz
  have hD : (0 : Rat) < ((a.den * b.den : Nat) : Rat) := by
    push_cast
    exact mul_pos hda hdb
  have hab : a - b = ((a.num * (b.den : Int) - b.num * (a.den : Int) : Int) : Rat) /
      ((a.den * b.den : Nat) : Rat) := by
    rw [eq_div_iff (ne_of_gt hD)]
    push_cast
    rw [sub_mul]
    nth_rewrite 1 [← Rat.num_div_den a]
    nth_rewrite 2 [← Rat.num_div_den b]
    field_simp
    ring
  unfold absDiffLtOne
  rw [decide_eq_true_eq, hab, abs_div, abs_of_pos hD, div_lt_one hD,
    ← Int.cast_abs, Int.abs_eq_natAbs]
  exact_mod_cast Iff.rfl

/-! ## Backup filename parsing (glob + ts_regex + strptime) -/

/-- Value of an ASCII digit character. -/
def dval (c : Char) : Nat := c.toNat - 48

/-- The fixed-shape group (\d{4}-\d{2}-\d{2}_\d{2}-\d{2}-\d{2}) of
ts_regex, applied to exactly 19 characters. -/
def parseTs19 (cs : List Char) : Option Timestamp :=
  match cs with
  | [y1, y2, y3, y4, s1, m1, m2, s2, d1, d2, s3, h1, h2, s4, n1, n2, s5, c1, c2] =>
    if ([y1, y2, y3, y4, m1, m2, d1, d2, h1, h2, n1, n2, c1, c2].all Char.isDigit)
        && s1 == '-' && s2 == '-' && s3 == '_' && s4 == '-' && s5 == '-' then
      some ⟨((dval y1 * 10 + dval y2) * 10 + dval y3) * 10 + dval y4,
            dval m1 * 10 + dval m2, dval d1 * 10 + dval d2,
            dval h1 * 10 + dval h2, dval n1 * 10 + dval n2,
            dval c1 * 10 + dval c2⟩
    else none
  | _ => none

def isLeapYear (y : Nat) : Bool := (y % 4 == 0 && y % 100 != 0) || y % 400 == 0

def daysInMonth (y mo : Nat) : Nat :=
  if mo == 2 then (if isLeapYear y then 29 else 28)
  else if mo == 4 || mo == 6 || mo == 9 || mo == 11 then 30
  else 31

/-- Range validation performed by datetime.strptime together with the
datetime constructor (year ≥ 1, calendar-valid month/day, 24h clock). -/
def tsValid (t : Timestamp) : Bool :=
  1 ≤ t.y && 1 ≤ t.mo && t.mo ≤ 12 && 1 ≤ t.d && t.d ≤ daysInMonth t.y t.mo &&
    t.h ≤ 23 && t.mi ≤ 59 && t.s ≤ 59

/-- datetime.strptime(ts_str, "%Y-%m-%d_%H-%M-%S") on the regex group:
None models the ValueError branch (malformed or out-of-range). -/
def strptimeTs (cs : List Char) : Option Timestamp :=
  match parseTs19 cs with
  | some t => if tsValid t then some t else none
  | none => none

/-- glob pattern f"{base_name}_*.{file_extension}" applied to a basename:
the name is base ++ "_" ++ s ++ "." ++ ext for some (possibly empty) s. -/
def globMatch (base ext name : String) : Bool :=
  (base.toList ++ ['_']).isPrefixOf name.toList &&
    ('.' :: ext.toList).isSuffixOf (name.toList.drop (base.toList.length + 1))

/-- ts_regex = ^{escape(base_name)}_(\d{4}-\d{2}-\d{2}_\d{2}-\d{2}-\d{2})\.{escape(ext)}$
followed by strptime; the timestamp group has fixed length 19 so the
decomposition is unique. -/
def parseBackupTs (base ext name : String) : Option Timestamp :=
  let pre := base.toList ++ ['_']
  let suf := '.' :: ext.toList
  let cs := name.toList
  if pre.isPrefixOf cs then
    let rest := cs.drop pre.length
    if rest.drop 19 == suf then strptimeTs (rest.take 19) else none
  else none

/-- existing_backups (the glob) restricted to names with a parseable
embedded timestamp: the backups_with_ts list, in directory-enumeration
order. -/
def backupsWithTs (base ext : String) (files : List (String × Rat)) :
    List (String × Timestamp) :=
  (files.filter (fun p => globMatch base ext p.1)).filterMap
    (fun p => (parseBackupTs base ext p.1).map (fun t => (p.1, t)))

/-- backups_with_ts.sort(key=lambda x: x[1]) — stable ascending. -/
def sortAsc (bs : List (String × Timestamp)) : List (String × Timestamp) :=
  sSort (fun x y => decide (tsKey x.2 < tsKey y.2)) bs

/-- backups_with_ts.sort(key=lambda x: x[1], reverse=True) — stable
descending. -/
def sortDesc (bs : List (String × Timestamp)) : List (String × Timestamp) :=
  sSort (fun x y => decide (tsKey y.2 < tsKey x.2)) bs

/-! ## The two pruning policies -/

/-- Newest-n pruning: sort descending, delete everything past index n
(the code deletes only when len > n; drop n is [] in that case too).
Returns (kept, deleted). -/
def pruneNewestFn (n : Nat) (bs : List (String × Timestamp)) :
    List (String × Timestamp) × List (String × Timestamp) :=
  let s := sortDesc bs
  (s.take n, s.drop n)

/-- idx = min(max(idx, 0), m_val - 1). -/
def clampIdx (m : Nat) (raw : Int) : Nat := (min (max raw 0) ((m : Int) - 1)).toNat

/-- The keep_indices list of staggered pruning, with the real-valued
int(round(math.exp(math.log(m-1)*i/(n-1)))) abstracted as stagRaw m n i
(theorems hold for every value of it).  The source applies
sorted(set(...)); only set membership is consumed downstream, which
dedup preserves. -/
def stagIndices (stagRaw : Nat → Nat → Nat → Int) (m n : Nat) : List Nat :=
  if n == 1 then [m - 1]
  else ((List.range n).map (fun i =>
      if i == 0 then 0
      else if i == n - 1 then m - 1
      else clampIdx m (stagRaw m n i))).dedup

/-- Staggered pruning: sort ascending; when m > n keep exactly the
files at keep_indices (by path) and delete the rest; otherwise delete
nothing.  Returns (kept, deleted). -/
def pruneStaggeredFn (stagRaw : Nat → Nat → Nat → Int) (n : Nat)
    (bs : List (String × Timestamp)) :
    List (String × Timestamp) × List (String × Timestamp) :=
  let s := sortAsc bs
  let m := s.length
  if n < m then
    let keepPaths := (stagIndices stagRaw m n).map (fun i => (s.getD i ("", default)).1)
    (s.filter (fun p => keepPaths.contains p.1),
     s.filter (fun p => !(keepPaths.contains p.1)))
  else (s, [])

/-- The whole pruning pass at the end of
download_google_file_as_ms_office: glob, parse, then newest-mode if
--newest was given, else staggered-mode if --staggered was given. -/
def prunePass (stagRaw : Nat → Nat → Nat → Int) (pn ps : Option Nat)
    (base ext : String) (files : List (String × Rat)) :
    List (String × Timestamp) × List (String × Timestamp) :=
  let bs := backupsWithTs base ext files
  match pn with
  | some n => pruneNewestFn n bs
  | none =>
    match ps with
    | some n => pruneStaggeredFn stagRaw n bs
    | none => (bs, [])

/-! ## Filesystem state and the retention engine -/

/-- The slice of the filesystem the engine touches: the basenames in
full_output_directory with their modification times (POSIX seconds),
in directory-enumeration order. -/
structure FS where
  files : List (String × Rat)
deriving DecidableEq, Repr

def FS.existsF (fs : FS) (n : String) : Bool := fs.files.any (fun p => p.1 == n)

/-- os.path.getmtime (callers only use it on existing names). -/
def FS.mtimeF (fs : FS) (n : String) : Rat :=
  ((fs.files.find? (fun p => p.1 == n)).map Prod.snd).getD 0

/-- os.rename a b (overwriting b if present, keeping a's mtime). -/
def FS.renameF (fs : FS) (a b : String) : FS :=
  ⟨(fs.files.filter (fun p => p.1 != a && p.1 != b)) ++ [(b, fs.mtimeF a)]⟩

/-- GetContentFile: (over)write a file; its mtime is the wall clock. -/
def FS.writeF (fs : FS) (n : String) (m : Rat) : FS :=
  ⟨(fs.files.filter (fun p => p.1 != n)) ++ [(n, m)]⟩

/-- os.utime(n, (m, m)). -/
def FS.setMtimeF (fs : FS) (n : String) (m : Rat) : FS :=
  ⟨fs.files.map (fun p => if p.1 == n then (p.1, m) else p)⟩

/-- os.remove. -/
def FS.removeF (fs : FS) (n : String) : FS :=
  ⟨fs.files.filter (fun p => p.1 != n)⟩

/-- The engine's externally visible decisions (the diagnostic trail):
skip, rename-to-backup, fetch, and the pruning keep/delete sets. -/
inductive Decision where
  | skip : Decision
  | renameD : String → Decision
  | fetch : String → Decision
  | pruneD : List String → List String → Decision
deriving DecidableEq, Repr

/-- Mutating filesystem calls (issued only when not dry_run). -/
inductive Mutation where
  | mkdirM : Mutation
  | renM : String → String → Mutation
  | writeM : String → Mutation
  | mtimeM : String → Mutation
  | delM : String → Mutation
deriving DecidableEq, Repr

/-- Per-document configuration of download_google_file_as_ms_office
(the dry-run flag and the wall clock are passed separately). -/
structure EngCfg where
  addTimestamp : Bool
  noClobber : Bool
  pruneNewest : Option Nat
  pruneStaggered : Option Nat
  stagRaw : Nat → Nat → Nat → Int
  baseName : String
  ext : String
  googleMod : Option GTime

structure EngOut where
  decisions : List Decision
  events : List Mutation
  fs : FS

def plainName (base ext : String) : String := base ++ "." ++ ext

/-- timestamp_str: strftime of the parsed remote modifiedDate, falling
back to datetime.now() when modifiedDate is absent or unparseable. -/
def timestampStr (gm : Option GTime) (nowFmt : Timestamp) : String :=
  match gm with
  | some g => fmtTs g.fmt
  | none => fmtTs nowFmt

/-- f"{base_name}_{timestamp_str}.{file_extension}" — the timestamped
download name, which is also the backup name used by the rename. -/
def stampedName (base ext : String) (gm : Option GTime) (nowFmt : Timestamp) : String :=
  base ++ "_" ++ timestampStr gm nowFmt ++ "." ++ ext

/-- The up-to-date check: not timestamp mode, the plain target exists,
and abs(local_mod_ts - google_mod_ts) < 1.0 (nothing to compare against
when modifiedDate is absent). -/
def mtimeSkip (cfg : EngCfg) (fs : FS) : Bool :=
  !cfg.addTimestamp && fs.existsF (plainName cfg.baseName cfg.ext) &&
    (match cfg.googleMod with
     | some g => absDiffLtOne (fs.mtimeF (plainName cfg.baseName cfg.ext)) g.epoch
     | none => false)

/-- download_google_file_as_ms_office, lines 486-655, for a document of
a supported kind with no filesystem or network errors.  dry_run guards
every mutating call but no decision; the pruning glob reads the
filesystem state the run has produced so far. -/
def runEngine (cfg : EngCfg) (dryRun : Bool) (nowFmt : Timestamp)
    (nowEpoch : Rat) (fs0 : FS) : EngOut :=
  let plain := plainName cfg.baseName cfg.ext
  let newName := if cfg.addTimestamp then
      stampedName cfg.baseName cfg.ext cfg.googleMod nowFmt else plain
  let evs0 : List Mutation := if dryRun then [] else [Mutation.mkdirM]
  if mtimeSkip cfg fs0 then ⟨[Decision.skip], evs0, fs0⟩
  else if cfg.noClobber && fs0.existsF plain then ⟨[Decision.skip], evs0, fs0⟩
  else
    let doRen := !cfg.addTimestamp && fs0.existsF plain
    let backupName := stampedName cfg.baseName cfg.ext cfg.googleMod nowFmt
    let ds1 := if doRen then [Decision.renameD backupName] else []
    let fs1 := if doRen && !dryRun then fs0.renameF plain backupName else fs0
    let evs1 := evs0 ++ (if doRen && !dryRun then [Mutation.renM plain backupName] else [])
    let ds2 := ds1 ++ [Decision.fetch newName]
    let fs2 := if dryRun then fs1 else
      match cfg.googleMod with
      | some g => (fs1.writeF newName nowEpoch).setMtimeF newName g.epoch
      | none => fs1.writeF newName nowEpoch
    let evs2 := evs1 ++ (if dryRun then [] else
      Mutation.writeM newName ::
        (match cfg.googleMod with | some _ => [Mutation.mtimeM newName] | none => []))
    if cfg.pruneNewest.isSome || cfg.pruneStaggered.isSome then
      let pr := prunePass cfg.stagRaw cfg.pruneNewest cfg.pruneStaggered
        cfg.baseName cfg.ext fs2.files
      let ds3 := ds2 ++ [Decision.pruneD (pr.1.map Prod.fst) (pr.2.map Prod.fst)]
      let fs3 := if dryRun then fs2 else pr.2.foldl (fun a p => a.removeF p.1) fs2
      let evs3 := evs2 ++ (if dryRun then [] else pr.2.map (fun p => Mutation.delM p.1))
      ⟨ds3, evs3, fs3⟩
    else ⟨ds2, evs2, fs2⟩

/-! ## The remote path resolver (find_folder_id) -/

/-- A folder descriptor as returned by drive.ListFile. -/
structure DFolder where
  id : String
  title : String
deriving DecidableEq, Repr

/-- The remote Drive as seen through the two calls the resolver makes:
child-folder listings (in API return order) and per-id title fetches
(none models a failing FetchMetadata). -/
structure Remote where
  children : String → List DFolder
  titleOf : String → Option String

/-- The remote queries the resolver can issue, in issue order. -/
inductive RQuery where
  | fetchTitle : String → RQuery
  | exactQ : String → String → RQuery
  | containsQ : String → String → RQuery
  | listAll : String → RQuery
deriving DecidableEq, Repr

/-- Python's \s on ASCII. -/
def isPySpace (c : Char) : Bool :=
  c == ' ' || c == '\t' || c == '\n' || c == '\r' ||
    c == Char.ofNat 11 || c == Char.ofNat 12

/-- re.sub(r'\s+', ' ', ...): collapse every whitespace run to one
space (flag = currently inside a run). -/
def collapseWsAux : Bool → List Char → List Char
  | _, [] => []
  | inRun, c :: cs =>
    if isPySpace c then
      if inRun then collapseWsAux true cs else ' ' :: collapseWsAux true cs
    else c :: collapseWsAux false cs

/-- str.strip() for whitespace. -/
def stripWs (cs : List Char) : List Char :=
  ((cs.dropWhile isPySpace).reverse.dropWhile isPySpace).reverse

/-- normalize(title) = re.sub(r'\s+',' ', title.replace(':',' ')).strip().lower() -/
def normalize (s : String) : String :=
  String.mk ((stripWs (collapseWsAux false
    (s.toList.map (fun c => if c == ':' then ' ' else c)))).map Char.toLower)

/-- re.search(r'\s{2,}', s): some run of two or more whitespace chars. -/
def hasMultiSpace : List Char → Bool
  | [] => false
  | [_] => false
  | c1 :: c2 :: rest =>
    (isPySpace c1 && isPySpace c2) || hasMultiSpace (c2 :: rest)

/-- Flush a pending (reversed) whitespace run: runs of length ≥ 2
become ": ", shorter ones are emitted unchanged. -/
def flushRun (pending : List Char) : List Char :=
  if 2 ≤ pending.length then [':', ' '] else pending.reverse

def mssAux (pending : List Char) : List Char → List Char
  | [] => flushRun pending
  | c :: cs =>
    if isPySpace c then mssAux (c :: pending) cs
    else flushRun pending ++ c :: mssAux [] cs

/-- re.sub(r'\s{2,}', ': ', s): every maximal whitespace run of length
at least two is replaced by ": "; single whitespace chars survive. -/
def multiSpaceSub (cs : List Char) : List Char := mssAux [] cs

/-- The characters of ' :;,_-' whose presence triggers word search. -/
def isTrigChar (c : Char) : Bool :=
  c == ' ' || c == ':' || c == ';' || c == ',' || c == '_' || c == '-'

/-- The delimiter class [\s:;,_-] used by re.split to tokenize. -/
def isDelim (c : Char) : Bool :=
  isPySpace c || c == ':' || c == ';' || c == ',' || c == '_' || c == '-'

def swAux (cur : List Char) : List Char → List (List Char)
  | [] => if cur.isEmpty then [] else [cur.reverse]
  | c :: cs =>
    if isDelim c then
      if cur.isEmpty then swAux [] cs else cur.reverse :: swAux [] cs
    else swAux (c :: cur) cs

/-- Nonempty tokens of re.split(r'[\s:;,_-]+', s). -/
def splitWords (cs : List Char) : List (List Char) := swAux [] cs

def wordsLen (ws : List (List Char)) : Nat := (ws.map List.length).sum

def lowerL (cs : List Char) : List Char := cs.map Char.toLower

/-- Remainder of the haystack after the first occurrence of w
(regex-search style, leftmost match). -/
def findRem (w : List Char) : List Char → Option (List Char)
  | [] => if w.isEmpty then some [] else none
  | c :: t => if w.isPrefixOf (c :: t) then some ((c :: t).drop w.length) else findRem w t

/-- re.search("w1.*w2...*wn", title, re.IGNORECASE): the words occur in
order, case-insensitively, not necessarily contiguously (caller
lowercases both sides). -/
def wordsInOrder : List (List Char) → List Char → Bool
  | [], _ => true
  | w :: ws, hay =>
    match findRem w hay with
    | some rest => wordsInOrder ws rest
    | none => false

/-- Substring test on character lists. -/
def isInfixL (needle : List Char) : List Char → Bool
  | [] => needle.isEmpty
  | c :: t => needle.isPrefixOf (c :: t) || isInfixL needle t

/-- 'title contains' semantics of the remote listing: case-insensitive
substring (external-collaborator behaviour). -/
def containsCI (needle hay : List Char) : Bool :=
  isInfixL (lowerL needle) (lowerL hay)

/-- ' '.join(words). -/
def joinWords : List (List Char) → List Char
  | [] => []
  | [w] => w
  | w :: ws => w ++ ' ' :: joinWords ws

/-- The exact-title child query. -/
def exactList (remote : Remote) (fid title : String) : List DFolder :=
  (remote.children fid).filter (fun f => f.title == title)

/-- One iteration of the per-segment search (exact match, colon
recovery retry, word-based search, debug listing on failure), without
the current-folder short-circuit.  Returns the new folder id (unchanged
when the segment is skipped) and the queries issued. -/
def segSearch (remote : Remote) (fid : String) (seg : String) : String × List RQuery :=
  let l1 := exactList remote fid seg
  let q1 := [RQuery.exactQ fid seg]
  let p2 : List DFolder × List RQuery :=
    if l1.isEmpty && !(seg.toList.contains ':') && hasMultiSpace seg.toList then
      let alt := String.mk (multiSpaceSub seg.toList)
      (exactList remote fid alt, q1 ++ [RQuery.exactQ fid alt])
    else (l1, q1)
  if p2.1.isEmpty && seg.toList.any isTrigChar then
    let ws := splitWords seg.toList
    if ws.isEmpty then (fid, p2.2)
    else
      let terms := joinWords ws
      let qs := p2.2 ++ [RQuery.containsQ fid (String.mk terms)]
      let cand := (remote.children fid).filter (fun f => containsCI terms f.title.toList)
      let tlen := wordsLen ws
      let good := cand.filter (fun f =>
        wordsLen (splitWords f.title.toList) == tlen &&
          wordsInOrder (ws.map lowerL) (lowerL f.title.toList))
      match good with
      | [] => (fid, qs ++ [RQuery.listAll fid])
      | m :: _ => (m.id, qs)
  else
    match p2.1 with
    | [] => (fid, p2.2 ++ [RQuery.listAll fid])
    | m :: _ => (m.id, p2.2)

/-- One loop iteration including the current-folder normalize
short-circuit (performed whenever the current folder is not 'root'). -/
def segStep (remote : Remote) (fid : String) (seg : String) : String × List RQuery :=
  if fid != "root" then
    let curTitle := (remote.titleOf fid).getD ""
    if normalize curTitle == normalize seg then (fid, [RQuery.fetchTitle fid])
    else
      let r := segSearch remote fid seg
      (r.1, RQuery.fetchTitle fid :: r.2)
  else segSearch remote fid seg

/-- The per-segment walk (empty segments are skipped up front). -/
def walkSegs (remote : Remote) : String → List String → String × List RQuery
  | fid, [] => (fid, [])
  | fid, seg :: rest =>
    if seg == "" then walkSegs remote fid rest
    else
      let r := segStep remote fid seg
      let r2 := walkSegs remote r.1 rest
      (r2.1, r.2 ++ r2.2)

/-- The .shortcut-targets-by-id mount reinterpretation: with segments
[marker, driveId, alias, ...], fetch driveId's online title (falling
back to the alias), replace the alias by it, drop the first two
segments, and restart the walk at driveId. -/
def shortcutAdjust (remote : Remote) (segs : List String) (startId : String) :
    List String × String × List RQuery :=
  match segs with
  | mark :: driveId :: aliasSeg :: rest =>
    if mark == ".shortcut-targets-by-id" then
      ((remote.titleOf driveId).getD aliasSeg :: rest, driveId, [RQuery.fetchTitle driveId])
    else (segs, startId, [])
  | _ => (segs, startId, [])

/-- Dict assignment folder_cache[drive_path] = folder_id on the
path-string → folder-id cache (assoc list with unique keys, as a dict):
replace the binding if the key is present, else append it. -/
def cacheUpsert : List (List String × String) → List String → String →
    List (List String × String)
  | [], k, v => [(k, v)]
  | p :: rest, k, v =>
    if p.1 == k then (k, v) :: rest else p :: cacheUpsert rest k v

def cacheLookup (c : List (List String × String)) (k : List String) : Option String :=
  (c.find? (fun p => p.1 == k)).map Prod.snd

structure ResolveOut where
  folderId : String
  queries : List RQuery
  cache : List (List String × String)

/-- find_folder_id(drive_path, starting_folder_id) of the current
source: shortcut adjustment, per-segment walk, then the unconditional
cache write folder_cache[drive_path] = folder_id.  Note the function
never reads the cache; the parameter only receives the final write. -/
def findFolderId (remote : Remote) (segs : List String) (startId : String)
    (cache : List (List String × String)) : ResolveOut :=
  let a := shortcutAdjust remote segs startId
  let w := walkSegs remote a.2.1 a.1
  ⟨w.1, a.2.2 ++ w.2, cacheUpsert cache a.1 w.1⟩

/-! ## Facts about the pruning pass -/

theorem mem_backupsWithTs {base ext : String} {files : List (String × Rat)}
    {f : String × Timestamp} (h : f ∈ backupsWithTs base ext files) :
    globMatch base ext f.1 = true ∧ parseBackupTs base ext f.1 = some f.2 := by
  unfold backupsWithTs at h
  rcases List.mem_filterMap.mp h with ⟨p, hp, hmap⟩
  rcases List.mem_filter.mp hp with ⟨_, hglob⟩
  cases hparse : parseBackupTs base ext p.1 with
  | none => rw [hparse] at hmap; simp at hmap
  | some t =>
    rw [hparse] at hmap
    simp only [Option.map_some', Option.some.injEq] at hmap
    subst hmap
    exact ⟨hglob, hparse⟩

theorem underscore_not_prefix_of_dot (l r : List Char) :
    (l ++ ['_']).isPrefixOf (l ++ '.' :: r) = false := by
  induction l with
  | nil => rfl
  | cons c cs ih => simpa [List.isPrefixOf] using ih

/-- The plain (non-timestamped) target never matches ts_regex. -/
theorem parseBackupTs_plainName (base ext : String) :
    parseBackupTs base ext (plainName base ext) = none := by
  unfold parseBackupTs plainName
  have h : (base ++ "." ++ ext).toList = base.toList ++ '.' :: ext.toList := by
    simp [String.toList, String.data_append]
  simp only [h, underscore_not_prefix_of_dot, Bool.false_eq_true, if_false]

/-- Index 0 is in the staggered keep set whenever n ≥ 2. -/
theorem zero_mem_stagIndices (stagRaw : Nat → Nat → Nat → Int) (m n : Nat)
    (hn : 2 ≤ n) : 0 ∈ stagIndices stagRaw m n := by
  unfold stagIndices
  have h1 : (n == 1) = false := by
    have : n ≠ 1 := by omega
    simpa using this
  rw [h1]
  simp only [Bool.false_eq_true, if_false, List.mem_dedup]
  refine List.mem_map.mpr ⟨0, List.mem_range.mpr (by omega), by simp⟩

/-- Index m-1 is in the staggered keep set whenever n ≥ 2. -/
theorem last_mem_stagIndices (stagRaw : Nat → Nat → Nat → Int) (m n : Nat)
    (hn : 2 ≤ n) : m - 1 ∈ stagIndices stagRaw m n := by
  unfold stagIndices
  have h1 : (n == 1) = false := by
    have : n ≠ 1 := by omega
    simpa using this
  rw [h1]
  simp only [Bool.false_eq_true, if_false, List.mem_dedup]
  refine List.mem_map.mpr ⟨n - 1, List.mem_range.mpr (by omega), ?_⟩
  have h2 : (n - 1 == 0) = false := by
    have : n - 1 ≠ 0 := by omega
    simpa using this
  simp [h2]

theorem contains_of_mem {x : String} {l : List String} (h : x ∈ l) :
    l.contains x = true :=
  List.elem_iff.mpr h

/-- C1 (staggered pruning retains the extremes), stated over the
ascending-sorted capture list s: the captures at index 0 and at index
m-1 of s are kept, and no deleted capture has either of their paths. -/
theorem staggered_retains_extremes
    (stagRaw : Nat → Nat → Nat → Int) (n : Nat) (bs : List (String × Timestamp))
    (hn : 2 ≤ n) (hm : n ≤ bs.length) :
    (sortAsc bs).getD 0 ("", default) ∈ (pruneStaggeredFn stagRaw n bs).1 ∧
    (sortAsc bs).getD ((sortAsc bs).length - 1) ("", default) ∈
      (pruneStaggeredFn stagRaw n bs).1 ∧
    ∀ d ∈ (pruneStaggeredFn stagRaw n bs).2,
      d.1 ≠ ((sortAsc bs).getD 0 ("", default)).1 ∧
      d.1 ≠ ((sortAsc bs).getD ((sortAsc bs).length - 1) ("", default)).1 := by
  have hs : (sortAsc bs).length = bs.length := length_sSort _ _
  have hlen : 2 ≤ (sortAsc bs).length := by omega
  have h0lt : 0 < (sortAsc bs).length := by omega
  have hllt : (sortAsc bs).length - 1 < (sortAsc bs).length := by omega
  have hmem0 : (sortAsc bs).getD 0 ("", default) ∈ sortAsc bs := by
    rw [List.getD_eq_getElem _ _ h0lt]
    exact List.getElem_mem h0lt
  have hmeml : (sortAsc bs).getD ((sortAsc bs).length - 1) ("", default) ∈ sortAsc bs := by
    rw [List.getD_eq_getElem _ _ hllt]
    exact List.getElem_mem hllt
  unfold pruneStaggeredFn
  by_cases hnm : n < (sortAsc bs).length
  · simp only [hnm, if_true]
    have hk0 : ((sortAsc bs).getD 0 ("", default)).1 ∈
        (stagIndices stagRaw (sortAsc bs).length n).map
          (fun i => ((sortAsc bs).getD i ("", default)).1) :=
      List.mem_map_of_mem _ (zero_mem_stagIndices stagRaw _ n hn)
    have hkl : ((sortAsc bs).getD ((sortAsc bs).length - 1) ("", default)).1 ∈
        (stagIndices stagRaw (sortAsc bs).length n).map
          (fun i => ((sortAsc bs).getD i ("", default)).1) :=
      List.mem_map_of_mem _ (last_mem_stagIndices stagRaw _ n hn)
    refine ⟨List.mem_filter.mpr ⟨hmem0, contains_of_mem hk0⟩,
      List.mem_filter.mpr ⟨hmeml, contains_of_mem hkl⟩, ?_⟩
    intro d hd
    rcases List.mem_filter.mp hd with ⟨_, hnotk⟩
    constructor
    · intro hEq
      rw [hEq] at hnotk
      rw [contains_of_mem hk0] at hnotk
      simp at hnotk
    · intro hEq
      rw [hEq] at hnotk
      rw [contains_of_mem hkl] at hnotk
      simp at hnotk
  · simp only [hnm, if_false]
    exact ⟨hmem0, hmeml, by intro d hd; simp at hd⟩

/-- Three captures of one base name with distinct years (used to
instantiate the retention theorems on concrete data). -/
def bsW3 : List (String × Timestamp) :=
  [("a_1", ⟨2020, 1, 1, 0, 0, 0⟩), ("a_2", ⟨2021, 1, 1, 0, 0, 0⟩),
   ("a_3", ⟨2022, 1, 1, 0, 0, 0⟩)]

/-- Witness for the staggered-extremes theorem at n = 2, m = 3. -/
theorem staggered_retains_extremes_witness :
    2 ≤ 2 ∧ 2 ≤ bsW3.length ∧
    ((sortAsc bsW3).getD 0 ("", default) ∈ (pruneStaggeredFn (fun _ _ _ => 0) 2 bsW3).1 ∧
     (sortAsc bsW3).getD ((sortAsc bsW3).length - 1) ("", default) ∈
       (pruneStaggeredFn (fun _ _ _ => 0) 2 bsW3).1 ∧
     ∀ d ∈ (pruneStaggeredFn (fun _ _ _ => 0) 2 bsW3).2,
       d.1 ≠ ((sortAsc bsW3).getD 0 ("", default)).1 ∧
       d.1 ≠ ((sortAsc bsW3).getD ((sortAsc bsW3).length - 1) ("", default)).1) :=
  ⟨by decide, by decide,
    staggered_retains_extremes (fun _ _ _ => 0) 2 bsW3 (by decide) (by decide)⟩

/-- C4 as stated is false: at a timestamp tie with n = 1, only one of
the two tied captures is kept, and which one depends on the
enumeration order the glob produced. -/
theorem newestn_tie_depends_on_glob_order :
    (pruneNewestFn 1 [("f1.docx", ⟨2024, 1, 1, 0, 0, 0⟩),
        ("f2.docx", ⟨2024, 1, 1, 0, 0, 0⟩)]).1 =
      [("f1.docx", ⟨2024, 1, 1, 0, 0, 0⟩)] ∧
    (pruneNewestFn 1 [("f2.docx", ⟨2024, 1, 1, 0, 0, 0⟩),
        ("f1.docx", ⟨2024, 1, 1, 0, 0, 0⟩)]).1 =
      [("f2.docx", ⟨2024, 1, 1, 0, 0, 0⟩)] ∧
    ("f2.docx", (⟨2024, 1, 1, 0, 0, 0⟩ : Timestamp)) ∈
      (pruneNewestFn 1 [("f1.docx", ⟨2024, 1, 1, 0, 0, 0⟩),
        ("f2.docx", ⟨2024, 1, 1, 0, 0, 0⟩)]).2 := by
  decide

/-- C4 amended: NewestN(n) keeps exactly min(n, m) captures and every
deleted capture's parsed timestamp is at most every kept one's (ties
are resolved by the stable descending sort, i.e. by glob order). -/
theorem newestn_keeps_min_most_recent (n : Nat) (bs : List (String × Timestamp)) :
    (pruneNewestFn n bs).1.length = min n bs.length ∧
    ∀ x ∈ (pruneNewestFn n bs).2, ∀ y ∈ (pruneNewestFn n bs).1,
      tsKey x.2 ≤ tsKey y.2 := by
  unfold pruneNewestFn sortDesc
  constructor
  · rw [List.length_take, length_sSort]
  · have hp := pairwise_sSort_desc (fun p : String × Timestamp => tsKey p.2) bs
    rw [← List.take_append_drop n
      (sSort (fun x y => decide (tsKey y.2 < tsKey x.2)) bs)] at hp
    rcases List.pairwise_append.mp hp with ⟨_, _, hcross⟩
    intro x hx y hy
    exact hcross y hy x hx

theorem newestn_keeps_min_most_recent_witness :
    ("a_2", (⟨2021, 1, 1, 0, 0, 0⟩ : Timestamp)) ∈ (pruneNewestFn 1 bsW3).2 ∧
    ("a_3", (⟨2022, 1, 1, 0, 0, 0⟩ : Timestamp)) ∈ (pruneNewestFn 1 bsW3).1 ∧
    tsKey (⟨2021, 1, 1, 0, 0, 0⟩ : Timestamp) ≤ tsKey (⟨2022, 1, 1, 0, 0, 0⟩ : Timestamp) :=
  ⟨by decide, by decide,
    (newestn_keeps_min_most_recent 1 bsW3).2 ("a_2", ⟨2021, 1, 1, 0, 0, 0⟩) (by decide)
      ("a_3", ⟨2022, 1, 1, 0, 0, 0⟩) (by decide)⟩

/-- C10: under either policy, the pruning pass deletes only files whose
basename exactly matches base_name_<YYYY-MM-DD_HH-MM-SS>.<ext> with a
parseable timestamp; in particular never the plain target. -/
theorem prune_deletes_only_timestamped (stagRaw : Nat → Nat → Nat → Int)
    (pn ps : Option Nat) (base ext : String) (files : List (String × Rat)) :
    ∀ f ∈ (prunePass stagRaw pn ps base ext files).2,
      globMatch base ext f.1 = true ∧ (parseBackupTs base ext f.1).isSome = true ∧
      f.1 ≠ plainName base ext := by
  intro f hf
  have hmem : f ∈ backupsWithTs base ext files := by
    unfold prunePass at hf
    cases pn with
    | some n =>
      simp only [pruneNewestFn, sortDesc] at hf
      exact (mem_sSort _ _ _).mp (List.mem_of_mem_drop hf)
    | none =>
      cases ps with
      | some n =>
        simp only [pruneStaggeredFn] at hf
        by_cases h : n < (sortAsc (backupsWithTs base ext files)).length
        · simp only [h, if_true] at hf
          have := (List.mem_filter.mp hf).1
          exact (mem_sSort _ _ _).mp this
        · simp only [h, if_false] at hf
          simp at hf
      | none => simp at hf
  rcases mem_backupsWithTs hmem with ⟨hg, hp⟩
  refine ⟨hg, by simp [hp], ?_⟩
  intro hEq
  rw [hEq, parseBackupTs_plainName] at hp
  exact absurd hp (by simp)

theorem prune_deletes_only_timestamped_witness :
    ("A.gdoc_2024-01-01_00-00-00.docx", (⟨2024, 1, 1, 0, 0, 0⟩ : Timestamp)) ∈
      (prunePass (fun _ _ _ => 0) (some 0) none "A.gdoc" "docx"
        [("A.gdoc.docx", 0), ("A.gdoc_2024-01-01_00-00-00.docx", 0)]).2 ∧
    (globMatch "A.gdoc" "docx" "A.gdoc_2024-01-01_00-00-00.docx" = true ∧
     (parseBackupTs "A.gdoc" "docx" "A.gdoc_2024-01-01_00-00-00.docx").isSome = true ∧
     "A.gdoc_2024-01-01_00-00-00.docx" ≠ plainName "A.gdoc" "docx") :=
  ⟨by decide,
    prune_deletes_only_timestamped (fun _ _ _ => 0) (some 0) none "A.gdoc" "docx"
      [("A.gdoc.docx", 0), ("A.gdoc_2024-01-01_00-00-00.docx", 0)]
      ("A.gdoc_2024-01-01_00-00-00.docx", ⟨2024, 1, 1, 0, 0, 0⟩) (by decide)⟩

/-! ## Dry-run parity and the per-mode decision tables -/

def isPruneDecision : Decision → Bool
  | Decision.pruneD _ _ => true
  | _ => false

/-- A document whose remote modified time (epoch 100) differs from the
plain target's local mtime (0), with one old backup on disk and
--newest 1 configured. -/
def cfgC2 : EngCfg :=
  ⟨false, false, some 1, none, fun _ _ _ => 0, "Doc.gdoc", "docx",
    some ⟨⟨2024, 6, 1, 12, 0, 0⟩, 100⟩⟩

def fsC2 : FS := ⟨[("Doc.gdoc.docx", 0), ("Doc.gdoc_2020-01-01_00-00-00.docx", 5)]⟩

/-- C2 as stated is false: on identical input state the dry run and the
live run reach different pruning keep/delete sets, because the live
run's rename and download change the directory contents that the
pruning glob then reads (the dry run sees only the old backup, the live
run also sees the fresh one and deletes the old). -/
theorem dry_live_prune_sets_differ :
    (runEngine cfgC2 true ⟨2025, 1, 1, 0, 0, 0⟩ 50 fsC2).decisions ≠
      (runEngine cfgC2 false ⟨2025, 1, 1, 0, 0, 0⟩ 50 fsC2).decisions := by
  decide

/-- C2 amended: the dry run issues no mutating call and leaves the
filesystem untouched, and it reaches exactly the live run's SKIP /
RENAME / FETCH decisions; only the pruning keep/delete sets may
diverge. -/
theorem dry_run_parity (cfg : EngCfg) (nf : Timestamp) (ne : Rat) (fs : FS) :
    (runEngine cfg true nf ne fs).events = [] ∧
    (runEngine cfg true nf ne fs).fs = fs ∧
    (runEngine cfg true nf ne fs).decisions.filter (fun d => !isPruneDecision d) =
      (runEngine cfg false nf ne fs).decisions.filter (fun d => !isPruneDecision d) := by
  unfold runEngine
  by_cases h1 : mtimeSkip cfg fs
  · simp [h1]
  · by_cases h2 : (cfg.noClobber && fs.existsF (plainName cfg.baseName cfg.ext)) = true
    · simp [h1, h2]
    · by_cases h3 : (cfg.pruneNewest.isSome || cfg.pruneStaggered.isSome) = true
      · simp [h1, h2, h3, isPruneDecision, List.filter_append, List.filter]
      · simp [h1, h2, h3, isPruneDecision, List.filter_append, List.filter]

/-- A timestamped-mode, no-clobber configuration. -/
def cfgC3 : EngCfg :=
  ⟨true, true, none, none, fun _ _ _ => 0, "Doc.gdoc", "docx",
    some ⟨⟨2024, 6, 1, 12, 0, 0⟩, 100⟩⟩

def fsC3 : FS := ⟨[("Doc.gdoc.docx", 100)]⟩

def fsE : FS := ⟨[]⟩

/-- C3 as stated is false: with no-clobber enabled and the plain target
present, timestamped mode SKIPs — the no-clobber check is not guarded
by the timestamp flag, so no timestamped fetch occurs. -/
theorem timestamped_noclobber_skips :
    (runEngine cfgC3 false ⟨2025, 1, 1, 0, 0, 0⟩ 50 fsC3).decisions = [Decision.skip] ∧
    Decision.fetch
        (stampedName cfgC3.baseName cfgC3.ext cfgC3.googleMod ⟨2025, 1, 1, 0, 0, 0⟩) ∉
      (runEngine cfgC3 false ⟨2025, 1, 1, 0, 0, 0⟩ 50 fsC3).decisions := by
  decide

/-- C3 amended: in timestamped mode the engine never renames and never
skips via the mtime check, and it fetches to the timestamp-suffixed
name — except that the no-clobber check is still consulted: with
no-clobber set and the plain target present the decision is SKIP. -/
theorem timestamped_mode_decisions (cfg : EngCfg) (dr : Bool) (nf : Timestamp)
    (ne : Rat) (fs : FS) (hts : cfg.addTimestamp = true) :
    ((cfg.noClobber && fs.existsF (plainName cfg.baseName cfg.ext)) = true →
       (runEngine cfg dr nf ne fs).decisions = [Decision.skip]) ∧
    ((cfg.noClobber && fs.existsF (plainName cfg.baseName cfg.ext)) = false →
       Decision.skip ∉ (runEngine cfg dr nf ne fs).decisions ∧
       Decision.fetch (stampedName cfg.baseName cfg.ext cfg.googleMod nf) ∈
         (runEngine cfg dr nf ne fs).decisions) ∧
    ∀ b, Decision.renameD b ∉ (runEngine cfg dr nf ne fs).decisions := by
  have hms : mtimeSkip cfg fs = false := by simp [mtimeSkip, hts]
  unfold runEngine
  refine ⟨fun h2 => by simp [hms, h2], fun h2 => ?_, fun b => ?_⟩
  · by_cases h3 : (cfg.pruneNewest.isSome || cfg.pruneStaggered.isSome) = true
    · simp [hms, h2, h3, hts]
    · simp [hms, h2, h3, hts]
  · by_cases h2 : (cfg.noClobber && fs.existsF (plainName cfg.baseName cfg.ext)) = true
    · simp [hms, h2]
    · by_cases h3 : (cfg.pruneNewest.isSome || cfg.pruneStaggered.isSome) = true
      · simp [hms, h2, h3, hts]
      · simp [hms, h2, h3, hts]

theorem timestamped_mode_decisions_witness :
    Decision.skip ∉ (runEngine cfgC3 false ⟨2025, 1, 1, 0, 0, 0⟩ 50 fsE).decisions ∧
    Decision.fetch
        (stampedName cfgC3.baseName cfgC3.ext cfgC3.googleMod ⟨2025, 1, 1, 0, 0, 0⟩) ∈
      (runEngine cfgC3 false ⟨2025, 1, 1, 0, 0, 0⟩ 50 fsE).decisions ∧
    Decision.renameD "b" ∉ (runEngine cfgC3 false ⟨2025, 1, 1, 0, 0, 0⟩ 50 fsE).decisions :=
  ⟨((timestamped_mode_decisions cfgC3 false ⟨2025, 1, 1, 0, 0, 0⟩ 50 fsE rfl).2.1
      (by decide)).1,
   ((timestamped_mode_decisions cfgC3 false ⟨2025, 1, 1, 0, 0, 0⟩ 50 fsE rfl).2.1
      (by decide)).2,
   (timestamped_mode_decisions cfgC3 false ⟨2025, 1, 1, 0, 0, 0⟩ 50 fsE rfl).2.2 "b"⟩

/-! ## Filesystem lemmas for the skip/idempotence arguments -/

theorem absDiffLtOne_self (x : Rat) : absDiffLtOne x x = true := by
  unfold absDiffLtOne
  simp only [sub_self, Int.natAbs_zero, decide_eq_true_eq]
  exact Nat.mul_pos (Nat.pos_of_ne_zero x.den_nz) (Nat.pos_of_ne_zero x.den_nz)

theorem any_filter_ne (l : List (String × Rat)) (x n : String) (h : x ≠ n) :
    (l.filter (fun p => p.1 != x)).any (fun p => p.1 == n) =
      l.any (fun p => p.1 == n) := by
  induction l with
  | nil => rfl
  | cons p t ih =>
    rw [List.filter_cons, List.any_cons]
    by_cases hx : p.1 = x
    · have hdrop : (p.1 != x) = false := by simp [bne, hx]
      have hn : (p.1 == n) = false := by
        rw [hx]
        exact beq_eq_false_iff_ne.mpr h
      rw [hdrop, hn]
      simp only [Bool.false_eq_true, if_false, Bool.false_or]
      exact ih
    · have hkeep : (p.1 != x) = true := by simp [bne, hx]
      rw [hkeep]
      simp only [if_true, List.any_cons]
      rw [ih]

theorem find?_filter_ne (l : List (String × Rat)) (x n : String) (h : x ≠ n) :
    (l.filter (fun p => p.1 != x)).find? (fun p => p.1 == n) =
      l.find? (fun p => p.1 == n) := by
  induction l with
  | nil => rfl
  | cons p t ih =>
    rw [List.filter_cons]
    by_cases hx : p.1 = x
    · have hdrop : (p.1 != x) = false := by simp [bne, hx]
      have hn : (p.1 == n) = false := by
        rw [hx]
        exact beq_eq_false_iff_ne.mpr h
      rw [hdrop]
      simp only [Bool.false_eq_true, if_false]
      rw [List.find?_cons_of_neg _ (by simp [hn])]
      exact ih
    · have hkeep : (p.1 != x) = true := by simp [bne, hx]
      rw [hkeep]
      simp only [if_true]
      by_cases hn : (p.1 == n) = true
      · simp [List.find?, hn]
      · have hnf : (p.1 == n) = false := by simpa using hn
        simp only [List.find?, hnf]
        exact ih

theorem removeF_existsF_ne (fs : FS) (x n : String) (h : x ≠ n) :
    (fs.removeF x).existsF n = fs.existsF n :=
  any_filter_ne fs.files x n h

theorem removeF_mtimeF_ne (fs : FS) (x n : String) (h : x ≠ n) :
    (fs.removeF x).mtimeF n = fs.mtimeF n := by
  unfold FS.mtimeF FS.removeF
  rw [find?_filter_ne fs.files x n h]

theorem foldl_removeF_preserves (L : List (String × Timestamp)) (fs : FS)
    (n : String) (h : ∀ p ∈ L, p.1 ≠ n) :
    (L.foldl (fun a p => a.removeF p.1) fs).existsF n = fs.existsF n ∧
    (L.foldl (fun a p => a.removeF p.1) fs).mtimeF n = fs.mtimeF n := by
  induction L generalizing fs with
  | nil => exact ⟨rfl, rfl⟩
  | cons p t ih =>
    simp only [List.foldl_cons]
    have hp : p.1 ≠ n := h p (List.mem_cons_self p t)
    rcases ih (fs.removeF p.1) (fun q hq => h q (List.mem_cons_of_mem _ hq)) with ⟨e1, e2⟩
    rw [e1, e2, removeF_existsF_ne fs _ _ hp, removeF_mtimeF_ne fs _ _ hp]
    exact ⟨rfl, rfl⟩

theorem writeSet_existsF (fs : FS) (n : String) (a b : Rat) :
    ((fs.writeF n a).setMtimeF n b).existsF n = true := by
  unfold FS.writeF FS.setMtimeF FS.existsF
  rw [List.map_append, List.any_append]
  have hr : (([(n, a)].map (fun p => if p.1 == n then (p.1, b) else p)).any
      (fun p => p.1 == n)) = true := by simp
  rw [hr, Bool.or_true]

theorem writeSet_mtimeF (fs : FS) (n : String) (a b : Rat) :
    ((fs.writeF n a).setMtimeF n b).mtimeF n = b := by
  unfold FS.writeF FS.setMtimeF FS.mtimeF
  simp only [List.map_append, List.find?_append]
  have hleft : ((fs.files.filter (fun p => p.1 != n)).map
      (fun p => if p.1 == n then (p.1, b) else p)).find? (fun p => p.1 == n) = none := by
    apply List.find?_eq_none.mpr
    intro q hq hc
    rcases List.mem_map.mp hq with ⟨p, hp, hmap⟩
    have hpn : (p.1 == n) = false := by
      have := (List.mem_filter.mp hp).2
      simpa [bne] using this
    rw [hpn] at hmap
    simp only [Bool.false_eq_true, if_false] at hmap
    subst hmap
    rw [hpn] at hc
    exact Bool.false_ne_true hc
  have hr : (([(n, a)].map (fun p => if p.1 == n then (p.1, b) else p)).find?
      (fun p => p.1 == n)) = some (n, b) := by simp
  rw [hleft, hr]
  rfl

/-- Deleted entries of the pruning pass all come from backups_with_ts. -/
theorem prune_deleted_sub_backups (stagRaw : Nat → Nat → Nat → Int)
    (pn ps : Option Nat) (base ext : String) (files : List (String × Rat)) :
    ∀ f ∈ (prunePass stagRaw pn ps base ext files).2,
      f ∈ backupsWithTs base ext files := by
  intro f hf
  unfold prunePass at hf
  cases pn with
  | some n =>
    simp only [pruneNewestFn, sortDesc] at hf
    exact (mem_sSort _ _ _).mp (List.mem_of_mem_drop hf)
  | none =>
    cases ps with
    | some n =>
      simp only [pruneStaggeredFn] at hf
      by_cases h : n < (sortAsc (backupsWithTs base ext files)).length
      · simp only [h, if_true] at hf
        exact (mem_sSort _ _ _).mp (List.mem_filter.mp hf).1
      · simp only [h, if_false] at hf
        simp at hf
    | none => simp at hf

/-- No deleted entry of the pruning pass is the plain target. -/
theorem prune_deleted_ne_plain (stagRaw : Nat → Nat → Nat → Int)
    (pn ps : Option Nat) (base ext : String) (files : List (String × Rat)) :
    ∀ f ∈ (prunePass stagRaw pn ps base ext files).2, f.1 ≠ plainName base ext := by
  intro f hf hEq
  have hp := (mem_backupsWithTs
    (prune_deleted_sub_backups stagRaw pn ps base ext files f hf)).2
  rw [hEq, parseBackupTs_plainName] at hp
  exact absurd hp (by simp)

/-- Every decision the engine can emit is a skip, a rename to the
backup name, a fetch to the mode-dependent target, or a pruning
record. -/
theorem mem_decisions_cases (cfg : EngCfg) (dr : Bool) (nf : Timestamp) (ne : Rat)
    (fs : FS) (d : Decision) (hd : d ∈ (runEngine cfg dr nf ne fs).decisions) :
    d = Decision.skip ∨
    d = Decision.renameD (stampedName cfg.baseName cfg.ext cfg.googleMod nf) ∨
    d = Decision.fetch (if cfg.addTimestamp then
          stampedName cfg.baseName cfg.ext cfg.googleMod nf
        else plainName cfg.baseName cfg.ext) ∨
    isPruneDecision d = true := by
  unfold runEngine at hd
  by_cases h1 : mtimeSkip cfg fs = true
  · simp only [h1, if_true, List.mem_singleton] at hd
    exact Or.inl hd
  · by_cases h2 : (cfg.noClobber && fs.existsF (plainName cfg.baseName cfg.ext)) = true
    · simp only [h1, h2, Bool.false_eq_true, if_false, if_true, List.mem_singleton] at hd
      exact Or.inl hd
    · by_cases h4 : (!cfg.addTimestamp && fs.existsF (plainName cfg.baseName cfg.ext)) = true
      · by_cases h3 : (cfg.pruneNewest.isSome || cfg.pruneStaggered.isSome) = true
        · simp only [h1, h2, h3, h4, Bool.false_eq_true, if_false, if_true,
            List.append_assoc, List.singleton_append, List.mem_append,
            List.mem_singleton, List.mem_cons, List.not_mem_nil, or_false] at hd
          rcases hd with (hd | hd) | hd
          · exact Or.inr (Or.inl hd)
          · exact Or.inr (Or.inr (Or.inl hd))
          · refine Or.inr (Or.inr (Or.inr ?_))
            rw [hd]
            rfl
        · simp only [h1, h2, h3, h4, Bool.false_eq_true, if_false, if_true,
            List.mem_append, List.mem_singleton, List.mem_cons,
            List.not_mem_nil, or_false] at hd
          rcases hd with hd | hd
          · exact Or.inr (Or.inl hd)
          · exact Or.inr (Or.inr (Or.inl hd))
      · by_cases h3 : (cfg.pruneNewest.isSome || cfg.pruneStaggered.isSome) = true
        · simp only [h1, h2, h3, h4, Bool.false_eq_true, if_false, if_true,
            List.append_assoc, List.nil_append, List.singleton_append,
            List.mem_append, List.mem_singleton, List.mem_cons,
            List.not_mem_nil, or_false] at hd
          rcases hd with hd | hd
          · exact Or.inr (Or.inr (Or.inl hd))
          · refine Or.inr (Or.inr (Or.inr ?_))
            rw [hd]
            rfl
        · simp only [h1, h2, h3, h4, Bool.false_eq_true, if_false, if_true,
            List.nil_append, List.mem_singleton] at hd
          exact Or.inr (Or.inr (Or.inl hd))

/-- When modifiedDate is absent the engine falls back to the wall
clock: a timestamped-mode run with no remote modified time names its
capture after datetime.now(). -/
def cfgC7 : EngCfg :=
  ⟨true, false, none, none, fun _ _ _ => 0, "Doc.gdoc", "docx", none⟩

/-- C7 as stated is false: with modifiedDate absent, two captures of
identical state taken at different wall-clock instants get different
timestamped names — the embedded timestamp came from the clock at
capture, not from a remote modified time. -/
theorem wallclock_fallback_in_names :
    (runEngine cfgC7 false ⟨2025, 1, 1, 0, 0, 0⟩ 50 fsE).decisions ≠
      (runEngine cfgC7 false ⟨2026, 2, 2, 3, 4, 5⟩ 50 fsE).decisions := by
  decide

/-- C7 amended: whenever the remote modifiedDate is present (and
parses), every fetched or renamed-to name embeds exactly the strftime
of the remote modified time immediately before the export extension,
independently of the wall clock nf/ne; only when modifiedDate is
missing or unparseable does the code fall back to datetime.now(). -/
theorem names_from_remote_time (cfg : EngCfg) (dr : Bool) (nf : Timestamp)
    (ne : Rat) (fs : FS) (g : GTime) (hg : cfg.googleMod = some g) :
    (∀ t, Decision.fetch t ∈ (runEngine cfg dr nf ne fs).decisions →
       t = (if cfg.addTimestamp then
              cfg.baseName ++ "_" ++ fmtTs g.fmt ++ "." ++ cfg.ext
            else plainName cfg.baseName cfg.ext)) ∧
    (∀ b, Decision.renameD b ∈ (runEngine cfg dr nf ne fs).decisions →
       b = cfg.baseName ++ "_" ++ fmtTs g.fmt ++ "." ++ cfg.ext) := by
  have hsn : stampedName cfg.baseName cfg.ext cfg.googleMod nf =
      cfg.baseName ++ "_" ++ fmtTs g.fmt ++ "." ++ cfg.ext := by
    simp [stampedName, timestampStr, hg]
  constructor
  · intro t ht
    rcases mem_decisions_cases cfg dr nf ne fs _ ht with h | h | h | h
    · exact absurd h (by simp)
    · exact absurd h (by simp)
    · by_cases hts : cfg.addTimestamp = true
      · simp only [hts, if_true] at h ⊢
        rw [← hsn]
        exact (Decision.fetch.injEq _ _).mp h
      · have hts0 : cfg.addTimestamp = false := by simpa using hts
        simp only [hts0, Bool.false_eq_true, if_false] at h ⊢
        exact (Decision.fetch.injEq _ _).mp h
    · exact absurd h (by simp [isPruneDecision])
  · intro b hb
    rcases mem_decisions_cases cfg dr nf ne fs _ hb with h | h | h | h
    · exact absurd h (by simp)
    · rw [← hsn]
      exact (Decision.renameD.injEq _ _).mp h
    · exact absurd h (by simp)
    · exact absurd h (by simp [isPruneDecision])

theorem names_from_remote_time_witness :
    Decision.renameD "Doc.gdoc_2024-06-01_12-00-00.docx" ∈
      (runEngine cfgC2 false ⟨2025, 1, 1, 0, 0, 0⟩ 50 fsC2).decisions ∧
    "Doc.gdoc_2024-06-01_12-00-00.docx" =
      cfgC2.baseName ++ "_" ++ fmtTs (⟨2024, 6, 1, 12, 0, 0⟩ : Timestamp) ++ "." ++ cfgC2.ext :=
  ⟨by decide,
    (names_from_remote_time cfgC2 false ⟨2025, 1, 1, 0, 0, 0⟩ 50 fsC2
      ⟨⟨2024, 6, 1, 12, 0, 0⟩, 100⟩ rfl).2 "Doc.gdoc_2024-06-01_12-00-00.docx" (by decide)⟩

theorem runEngine_of_mtimeSkip (cfg : EngCfg) (dr : Bool) (nf : Timestamp)
    (ne : Rat) (fs : FS) (h : mtimeSkip cfg fs = true) :
    runEngine cfg dr nf ne fs =
      ⟨[Decision.skip], if dr then [] else [Mutation.mkdirM], fs⟩ := by
  unfold runEngine
  simp [h]

theorem runEngine_of_noClobber (cfg : EngCfg) (dr : Bool) (nf : Timestamp)
    (ne : Rat) (fs : FS) (h1 : mtimeSkip cfg fs = false)
    (h2 : (cfg.noClobber && fs.existsF (plainName cfg.baseName cfg.ext)) = true) :
    runEngine cfg dr nf ne fs =
      ⟨[Decision.skip], if dr then [] else [Mutation.mkdirM], fs⟩ := by
  unfold runEngine
  simp [h1, h2]

/-- After a live non-timestamped fetch, the plain target exists and
its mtime equals the remote modified time (os.utime), regardless of
rename and pruning. -/
theorem fetch_path_plain_state (cfg : EngCfg) (nf : Timestamp) (ne : Rat) (fs : FS)
    (g : GTime) (hts : cfg.addTimestamp = false) (hg : cfg.googleMod = some g)
    (h1 : mtimeSkip cfg fs = false)
    (h2 : (cfg.noClobber && fs.existsF (plainName cfg.baseName cfg.ext)) = false) :
    (runEngine cfg false nf ne fs).fs.existsF (plainName cfg.baseName cfg.ext) = true ∧
    (runEngine cfg false nf ne fs).fs.mtimeF (plainName cfg.baseName cfg.ext) = g.epoch := by
  unfold runEngine
  by_cases h3 : (cfg.pruneNewest.isSome || cfg.pruneStaggered.isSome) = true
  · simp only [h1, h2, hg, hts, h3, Bool.false_eq_true, if_false, if_true,
      Bool.not_false, Bool.true_and, Bool.and_true]
    obtain ⟨hef, hmf⟩ := foldl_removeF_preserves
      (prunePass cfg.stagRaw cfg.pruneNewest cfg.pruneStaggered cfg.baseName cfg.ext
        ((((if fs.existsF (plainName cfg.baseName cfg.ext) = true then
              fs.renameF (plainName cfg.baseName cfg.ext)
                (stampedName cfg.baseName cfg.ext (some g) nf)
            else fs).writeF (plainName cfg.baseName cfg.ext) ne).setMtimeF
          (plainName cfg.baseName cfg.ext) g.epoch).files)).2
      ((((if fs.existsF (plainName cfg.baseName cfg.ext) = true then
            fs.renameF (plainName cfg.baseName cfg.ext)
              (stampedName cfg.baseName cfg.ext (some g) nf)
          else fs).writeF (plainName cfg.baseName cfg.ext) ne).setMtimeF
        (plainName cfg.baseName cfg.ext) g.epoch))
      (plainName cfg.baseName cfg.ext)
      (fun p hp => prune_deleted_ne_plain cfg.stagRaw cfg.pruneNewest cfg.pruneStaggered
        cfg.baseName cfg.ext _ p hp)
    constructor
    · rw [hef]
      exact writeSet_existsF _ _ _ _
    · rw [hmf]
      exact writeSet_mtimeF _ _ _ _
  · simp only [h1, h2, hg, hts, h3, Bool.false_eq_true, if_false, if_true,
      Bool.not_false, Bool.true_and, Bool.and_true]
    exact ⟨writeSet_existsF _ _ _ _, writeSet_mtimeF _ _ _ _⟩

/-- C8: in non-timestamped mode with a parsed remote modified time, (a)
if the plain target exists with local mtime within one second of the
remote modified time the run is exactly a SKIP (the only filesystem
call is the unconditional makedirs; no rename, fetch, utime or delete,
and the filesystem is unchanged), and (b) whatever the first live run
did, a second live run over its resulting state — at any later wall
clock — is exactly such a SKIP, because a successful fetch set the
plain target's mtime to the remote modified time. -/
theorem uptodate_skip_and_idempotence (cfg : EngCfg) (nf : Timestamp) (ne : Rat)
    (fs : FS) (g : GTime) (hts : cfg.addTimestamp = false)
    (hg : cfg.googleMod = some g) :
    (fs.existsF (plainName cfg.baseName cfg.ext) = true →
       |fs.mtimeF (plainName cfg.baseName cfg.ext) - g.epoch| < 1 →
       runEngine cfg false nf ne fs = ⟨[Decision.skip], [Mutation.mkdirM], fs⟩) ∧
    (∀ nf2 ne2,
       runEngine cfg false nf2 ne2 (runEngine cfg false nf ne fs).fs =
         ⟨[Decision.skip], [Mutation.mkdirM], (runEngine cfg false nf ne fs).fs⟩) := by
  constructor
  · intro hex hclose
    have hms : mtimeSkip cfg fs = true := by
      unfold mtimeSkip
      rw [hts, hg, hex]
      simp [(absDiffLtOne_iff _ _).mpr hclose]
    simpa using runEngine_of_mtimeSkip cfg false nf ne fs hms
  · intro nf2 ne2
    by_cases h1 : mtimeSkip cfg fs = true
    · rw [runEngine_of_mtimeSkip cfg false nf ne fs h1]
      simpa using runEngine_of_mtimeSkip cfg false nf2 ne2 fs h1
    · have h1f : mtimeSkip cfg fs = false := by simpa using h1
      by_cases h2 : (cfg.noClobber && fs.existsF (plainName cfg.baseName cfg.ext)) = true
      · rw [runEngine_of_noClobber cfg false nf ne fs h1f h2]
        simpa using runEngine_of_noClobber cfg false nf2 ne2 fs h1f h2
      · have h2f : (cfg.noClobber && fs.existsF (plainName cfg.baseName cfg.ext)) = false := by
          simpa using h2
        obtain ⟨hex2, hmt2⟩ := fetch_path_plain_state cfg nf ne fs g hts hg h1f h2f
        have hms2 : mtimeSkip cfg (runEngine cfg false nf ne fs).fs = true := by
          unfold mtimeSkip
          rw [hts, hg, hex2, hmt2]
          simp [absDiffLtOne_self]
        simpa using runEngine_of_mtimeSkip cfg false nf2 ne2 _ hms2

theorem uptodate_skip_and_idempotence_witness :
    runEngine cfgC2 false ⟨2025, 1, 1, 0, 0, 0⟩ 50 fsC3 =
      ⟨[Decision.skip], [Mutation.mkdirM], fsC3⟩ ∧
    runEngine cfgC2 false ⟨2026, 2, 2, 0, 0, 0⟩ 51
        (runEngine cfgC2 false ⟨2025, 1, 1, 0, 0, 0⟩ 50 fsC2).fs =
      ⟨[Decision.skip], [Mutation.mkdirM],
        (runEngine cfgC2 false ⟨2025, 1, 1, 0, 0, 0⟩ 50 fsC2).fs⟩ :=
  ⟨(uptodate_skip_and_idempotence cfgC2 ⟨2025, 1, 1, 0, 0, 0⟩ 50 fsC3
      ⟨⟨2024, 6, 1, 12, 0, 0⟩, 100⟩ rfl rfl).1 (by decide)
      ((absDiffLtOne_iff _ _).mp (by decide)),
   (uptodate_skip_and_idempotence cfgC2 ⟨2025, 1, 1, 0, 0, 0⟩ 50 fsC2
      ⟨⟨2024, 6, 1, 12, 0, 0⟩, 100⟩ rfl rfl).2 ⟨2026, 2, 2, 0, 0, 0⟩ 51⟩

/-! ## Concrete remotes for the resolver claims -/

/-- A Drive with a single folder "Reports" (id "rid") under the root. -/
def reportsRemote : Remote :=
  ⟨fun pid => if pid == "root" then [⟨"rid", "Reports"⟩] else [], fun _ => none⟩

/-- A Drive with a single folder "Project: Plan" (id "pid2") under the
root. -/
def projRemote : Remote :=
  ⟨fun pid => if pid == "root" then [⟨"pid2", "Project: Plan"⟩] else [], fun _ => none⟩

/-- A Drive with no folders at all. -/
def emptyRemote : Remote := ⟨fun _ => [], fun _ => none⟩

/-- C5's behaviour: the resolver's result and query trail never depend
on the cache argument at all (the cache is written, never read), so
resolving the same path twice issues the full set of remote queries
both times: concretely, the second resolution of ["Reports"], run on
the cache produced by the first (which does hold the entry), still
issues the exact-title child query. -/
theorem findFolderId_never_reads_cache :
    (∀ (remote : Remote) (segs : List String) (startId : String)
       (c1 c2 : List (List String × String)),
       (findFolderId remote segs startId c1).queries =
         (findFolderId remote segs startId c2).queries ∧
       (findFolderId remote segs startId c1).folderId =
         (findFolderId remote segs startId c2).folderId) ∧
    (findFolderId reportsRemote ["Reports"] "root" []).cache = [(["Reports"], "rid")] ∧
    (findFolderId reportsRemote ["Reports"] "root"
        (findFolderId reportsRemote ["Reports"] "root" []).cache).queries =
      [RQuery.exactQ "root" "Reports"] :=
  ⟨fun _ _ _ _ _ => ⟨rfl, rfl⟩, by decide, by decide⟩

/-! ## The colon-recovery retry (C6) -/

/-- Modelled from the spec: "retry with the first such run replaced by
': '" — replace only the FIRST run of two or more whitespace characters
by ": ", leaving later runs unchanged.  Stated for comparison with the
code's multiSpaceSub, which substitutes every run. -/
def firstRunOnlySub : List Char → List Char
  | [] => []
  | c :: cs =>
    if isPySpace c && (match cs with | d :: _ => isPySpace d | [] => false) then
      ':' :: ' ' :: cs.dropWhile isPySpace
    else c :: firstRunOnlySub cs

/-- C6 as stated is false: for the segment "A  B  C" the code's retry
query uses "A: B: C" (every whitespace run substituted), not the
spec's "A: B  C" (first run only). -/
theorem colon_retry_not_first_run_only :
    String.mk (firstRunOnlySub ("A  B  C".toList)) = "A: B  C" ∧
    RQuery.exactQ "root" "A: B: C" ∈
      (findFolderId emptyRemote ["A  B  C"] "root" []).queries ∧
    RQuery.exactQ "root" "A: B  C" ∉
      (findFolderId emptyRemote ["A  B  C"] "root" []).queries := by
  decide

/-- C6 amended: when the exact match fails, the segment has no colon
and contains a run of 2+ whitespace, the retry re-issues the exact
query with EVERY such run replaced by ": "; in particular local segment
"Project  Plan" resolves to the remote folder titled "Project: Plan"
by this retry alone, with no word-search query issued. -/
theorem colon_recovery_retry (remote : Remote) (seg : String)
    (hex : exactList remote "root" seg = [])
    (hcolon : seg.toList.contains ':' = false)
    (hrun : hasMultiSpace seg.toList = true) :
    (segSearch remote "root" seg).2.take 2 =
      [RQuery.exactQ "root" seg,
       RQuery.exactQ "root" (String.mk (multiSpaceSub seg.toList))] ∧
    (findFolderId projRemote ["Project  Plan"] "root" []).folderId = "pid2" ∧
    (findFolderId projRemote ["Project  Plan"] "root" []).queries =
      [RQuery.exactQ "root" "Project  Plan", RQuery.exactQ "root" "Project: Plan"] := by
  refine ⟨?_, by decide, by decide⟩
  unfold segSearch
  rw [hex]
  simp only [List.isEmpty_nil, hcolon, hrun, Bool.not_false, Bool.true_and,
    Bool.and_true, Bool.and_self, if_true]
  by_cases hB : ((exactList remote "root"
      (String.mk (multiSpaceSub seg.toList))).isEmpty && seg.toList.any isTrigChar) = true
  · simp only [hB, if_true]
    by_cases hW : (splitWords seg.toList).isEmpty = true
    · simp only [hW, if_true]
      rfl
    · simp only [hW, Bool.false_eq_true, if_false]
      cases hG : ((remote.children "root").filter
          (fun f => containsCI (joinWords (splitWords seg.toList)) f.title.toList)).filter
          (fun f => wordsLen (splitWords f.title.toList) == wordsLen (splitWords seg.toList) &&
            wordsInOrder ((splitWords seg.toList).map lowerL) (lowerL f.title.toList)) with
      | nil => rfl
      | cons m ms => rfl
  · simp only [hB, Bool.false_eq_true, if_false]
    cases hA : exactList remote "root" (String.mk (multiSpaceSub seg.toList)) with
    | nil => rfl
    | cons m ms => rfl

theorem colon_recovery_retry_witness :
    (segSearch emptyRemote "root" "A  B  C").2.take 2 =
      [RQuery.exactQ "root" "A  B  C",
       RQuery.exactQ "root" (String.mk (multiSpaceSub ("A  B  C".toList)))] ∧
    String.mk (multiSpaceSub ("A  B  C".toList)) = "A: B: C" :=
  ⟨(colon_recovery_retry emptyRemote "A  B  C" (by decide) (by decide) (by decide)).1,
   by decide⟩

/-! ## The cache write discipline (C9) -/

/-- C9 as stated is false: resolving ["Nope"] against an empty Drive
soft-skips the segment (the debug listing query is issued and the
folder id stays "root"), yet the walk still writes the cache entry
["Nope"] → "root". -/
theorem softfail_walk_still_cached :
    (findFolderId emptyRemote ["Nope"] "root" []).queries =
      [RQuery.exactQ "root" "Nope", RQuery.listAll "root"] ∧
    (findFolderId emptyRemote ["Nope"] "root" []).folderId = "root" ∧
    (findFolderId emptyRemote ["Nope"] "root" []).cache = [(["Nope"], "root")] := by
  decide

theorem cacheLookup_cacheUpsert_ne (c : List (List String × String))
    (k : List String) (v : String) (k2 : List String) (h : k2 ≠ k) :
    cacheLookup (cacheUpsert c k v) k2 = cacheLookup c k2 := by
  have hk : (k == k2) = false := beq_eq_false_iff_ne.mpr (fun e => h e.symm)
  induction c with
  | nil =>
    unfold cacheUpsert cacheLookup
    simp [List.find?, hk]
  | cons p rest ih =>
    unfold cacheUpsert
    by_cases hp : (p.1 == k) = true
    · simp only [hp, if_true]
      have hpe : p.1 = k := by simpa using hp
      have hp2 : (p.1 == k2) = false := by rw [hpe]; exact hk
      unfold cacheLookup
      simp [List.find?, hk, hp2]
    · simp only [hp, Bool.false_eq_true, if_false]
      unfold cacheLookup at ih ⊢
      by_cases hpk2 : (p.1 == k2) = true
      · simp [List.find?, hpk2]
      · have hp2 : (p.1 == k2) = false := by simpa using hpk2
        simp only [List.find?, hp2]
        exact ih

/-- C9 amended: find_folder_id writes the (possibly shortcut-rewritten)
path → final-folder-id binding unconditionally at the end of EVERY
walk, soft-skipped segments included; the write touches only that one
key, and no other entry is removed, overwritten or invalidated within
the run. -/
theorem cache_write_always (remote : Remote) (segs : List String) (startId : String)
    (c : List (List String × String)) :
    (findFolderId remote segs startId c).cache =
      cacheUpsert c (shortcutAdjust remote segs startId).1
        (findFolderId remote segs startId c).folderId ∧
    ∀ k, k ≠ (shortcutAdjust remote segs startId).1 →
      cacheLookup (findFolderId remote segs startId c).cache k = cacheLookup c k := by
  refine ⟨rfl, fun k hk => ?_⟩
  exact cacheLookup_cacheUpsert_ne c _ _ k hk

theorem cache_write_always_witness :
    (findFolderId emptyRemote ["Nope"] "root" [(["Other"], "x")]).cache =
      cacheUpsert [(["Other"], "x")] (shortcutAdjust emptyRemote ["Nope"] "root").1
        (findFolderId emptyRemote ["Nope"] "root" [(["Other"], "x")]).folderId ∧
    cacheLookup (findFolderId emptyRemote ["Nope"] "root" [(["Other"], "x")]).cache
        ["Other"] =
      cacheLookup [(["Other"], "x")] ["Other"] :=
  ⟨(cache_write_always emptyRemote ["Nope"] "root" [(["Other"], "x")]).1,
   (cache_write_always emptyRemote ["Nope"] "root" [(["Other"], "x")]).2
     ["Other"] (by decide)⟩

/-- Sanity checks of the embedding on concrete data: the strftime
rendering, a well-formed backup name, the plain target, and an
out-of-range month all behave as the source does. -/
theorem embedding_sanity :
    absDiffLtOne 0 100 = false ∧ absDiffLtOne 100 100 = true ∧
    fmtTs ⟨2024, 6, 1, 12, 0, 0⟩ = "2024-06-01_12-00-00" ∧
    parseBackupTs "Doc.gdoc" "docx" "Doc.gdoc_2024-06-01_12-00-00.docx" =
      some ⟨2024, 6, 1, 12, 0, 0⟩ ∧
    parseBackupTs "Doc.gdoc" "docx" "Doc.gdoc.docx" = none ∧
    parseBackupTs "Doc.gdoc" "docx" "Doc.gdoc_2024-13-01_12-00-00.docx" = none := by
  decide

end GDB
